import Mathlib

/-!
Verification development for the ldesign-validator repository.

Shallow embedding of the core engine: the cache key hasher
(src/utils/hash.ts), the result cache (src/core/Cache.ts), the result
pool (src/core/Pool.ts, shipped unnamed in the repository snapshot), the
rule-chain executor (src/core/Validator.ts) and the error-aggregation
loop of the schema executor (src/schema/SchemaValidator.ts).

JavaScript machine details that matter to the embedded code are made
explicit: 32-bit signed coercion in the djb2 hash, truthiness tests on
option fields (a ttl of 0 and an empty-string rule name are falsy), and
Map insertion order (modelled as an association list whose head is the
oldest entry).
-/

namespace LDValidator

/-- JavaScript primitive values handled by the embedded code paths.
Composite values (arrays, objects) only influence the hasher fold,
which no claim depends on beyond primitives, so they are not modelled. -/
inductive JSValue where
  | null
  | undefined
  | str (s : String)
  | num (n : Int)
  | boolean (b : Bool)
deriving DecidableEq, Repr

/-- JavaScript truthiness on the modelled primitive values. -/
def jsTruthy : JSValue → Bool
  | .null => false
  | .undefined => false
  | .str s => !(s = "")
  | .num n => !(n = 0)
  | .boolean b => b

/-- ValidationResult from src/types/index.ts. The meta field holds, when
present, the error payload written by executeRule, namely the message of
the caught error; no other meta shape occurs in the embedded paths. -/
structure ValidationResult where
  valid : Bool
  message : Option String := none
  code : Option String := none
  meta : Option String := none
deriving DecidableEq, Repr

/-- The JavaScript expression a || b for optional strings: the empty
string is falsy, so it falls through to the right operand. -/
def strOrElse (a : Option String) (b : Option String) : Option String :=
  match a with
  | some s => if s = "" then b else some s
  | none => b

/-! ## Cache key hasher (src/utils/hash.ts) -/

/-- ToInt32 coercion applied by the JavaScript shift operator. -/
def toInt32 (x : Int) : Int :=
  let r := x % 4294967296
  if r < 2147483648 then r else r - 4294967296

/-- ToUint32 coercion applied by the JavaScript unsigned shift x >>> 0. -/
def toUint32 (x : Int) : Nat :=
  (x % 4294967296).toNat

/-- One iteration of djb2Hash: hash = ((hash << 5) + hash) + c, where the
shift coerces to a signed 32-bit integer but the additions are exact
(the accumulator stays far below 2^53 for the modelled inputs). -/
def djb2Step (h : Int) (c : Char) : Int :=
  toInt32 (toInt32 h * 32) + h + c.toNat

/-- djb2Hash from src/utils/hash.ts lines 12-18: fold over the UTF-16
code units (identical to code points for the modelled strings), then
coerce with >>> 0. -/
def djb2Hash (s : String) : Nat :=
  toUint32 (s.data.foldl djb2Step 5381)

/-- valueToString from src/utils/hash.ts restricted to primitive values:
String(value) for strings, numbers and booleans, and the literal words
for null and undefined. -/
def valueToString : JSValue → String
  | .null => "null"
  | .undefined => "undefined"
  | .str s => s
  | .num n => toString n
  | .boolean b => if b then "true" else "false"

/-- Digit characters used by Number.prototype.toString(36). -/
def base36DigitChar (n : Nat) : Char :=
  if n < 10 then Char.ofNat (48 + n) else Char.ofNat (87 + n)

/-- Digit list in base 36, most significant first, computed with a fuel
argument for structural recursion; the quotient loses at least one unit
of fuel per digit, so fuel n + 1 always suffices. -/
def base36DigitsAux : Nat → Nat → List Char
  | 0, _ => []
  | fuel + 1, n =>
    if n < 36 then [base36DigitChar n]
    else base36DigitsAux fuel (n / 36) ++ [base36DigitChar (n % 36)]

/-- Digit list of a natural number in base 36, most significant first,
as produced by Number.prototype.toString(36) for a nonnegative integer. -/
def base36Digits (n : Nat) : List Char :=
  base36DigitsAux (n + 1) n

/-- hash.toString(36) for a 32-bit hash value. -/
def natToString36 (n : Nat) : String :=
  String.mk (base36Digits n)

/-- The paramsStr computation params ? valueToString(params) : two
single quotes; absent or falsy params give the empty string. -/
def paramsToString (params : Option JSValue) : String :=
  match params with
  | some p => if jsTruthy p then valueToString p else ""
  | none => ""

/-- The combined pre-hash string ruleName : valueStr : paramsStr built
by both fastHash and simpleKey. -/
def combinedKeyString (value : JSValue) (ruleName : String) (params : Option JSValue) : String :=
  ruleName ++ ":" ++ valueToString value ++ ":" ++ paramsToString params

/-- fastHash from src/utils/hash.ts lines 83-93. -/
def fastHash (value : JSValue) (ruleName : String) (params : Option JSValue) : String :=
  natToString36 (djb2Hash (combinedKeyString value ruleName params))

/-- simpleKey from src/utils/hash.ts lines 104-108: the combined string
without hashing. -/
def simpleKey (value : JSValue) (ruleName : String) (params : Option JSValue) : String :=
  combinedKeyString value ruleName params

/-! ## Association-list model of a JavaScript Map

A Map preserves insertion order; the list head is the oldest entry.
Setting an existing key updates it in place, setting a fresh key appends
at the end, and deleting removes the single entry with that key. -/

/-- First entry stored under a key, as Map.prototype.get sees it. -/
def assocLookup {α : Type} (k : String) : List (String × α) → Option α
  | [] => none
  | p :: rest => if p.1 = k then some p.2 else assocLookup k rest

/-- Map.prototype.set: update in place if the key exists, else append. -/
def assocSet {α : Type} (es : List (String × α)) (k : String) (v : α) : List (String × α) :=
  match assocLookup k es with
  | some _ => es.map (fun p => if p.1 = k then (k, v) else p)
  | none => es ++ [(k, v)]

/-- Map.prototype.delete: drop the entry with the given key. -/
def assocDelete {α : Type} (es : List (String × α)) (k : String) : List (String × α) :=
  es.eraseP (fun p => decide (p.1 = k))

/-! ## Result cache (src/core/Cache.ts) -/

/-- CacheEntry from src/core/Cache.ts lines 42-47. -/
structure CacheEntry where
  value : ValidationResult
  expireAt : Option Nat := none
deriving DecidableEq, Repr

/-- CacheOptions from src/core/Cache.ts lines 7-37 (the autoCleanup
timer fields drive a background timer only and are not modelled). -/
structure CacheOptions where
  maxSize : Option Nat := none
  ttl : Option Nat := none
  enabled : Option Bool := none
deriving Repr

/-- RuleCache state: the Map, the configuration read in the constructor,
and the hit/miss counters. -/
structure RuleCache where
  entries : List (String × CacheEntry)
  maxSize : Nat
  ttl : Option Nat
  enabled : Bool
  hits : Nat
  misses : Nat
deriving DecidableEq, Repr

/-- The RuleCache constructor (src/core/Cache.ts lines 92-105):
maxSize defaults to 1000 via the ?? operator, enabled to true, and the
ttl option is stored as given. -/
def RuleCache.create (options : CacheOptions) : RuleCache :=
  { entries := []
    maxSize := options.maxSize.getD 1000
    ttl := options.ttl
    enabled := options.enabled.getD true
    hits := 0
    misses := 0 }

/-- JavaScript truthiness of the stored ttl: this.ttl is falsy when
absent and also when it equals 0. -/
def RuleCache.ttlTruthy (c : RuleCache) : Bool :=
  match c.ttl with
  | some t => !(t = 0)
  | none => false

/-- The guard entry.expireAt && entry.expireAt < Date.now(): an expireAt
of 0 is falsy, so such an entry never counts as expired. -/
def entryExpired (e : CacheEntry) (now : Nat) : Bool :=
  match e.expireAt with
  | some t => !(t = 0) && decide (t < now)
  | none => false

/-- RuleCache.get (src/core/Cache.ts lines 114-135). Date.now() is the
explicit now argument. Returns the looked-up value and the new state. -/
def RuleCache.get (c : RuleCache) (now : Nat) (key : String) :
    Option ValidationResult × RuleCache :=
  if !c.enabled then (none, c)
  else
    match assocLookup key c.entries with
    | none => (none, { c with misses := c.misses + 1 })
    | some entry =>
      if entryExpired entry now then
        (none, { c with entries := assocDelete c.entries key, misses := c.misses + 1 })
      else
        (some entry.value, { c with hits := c.hits + 1 })

/-- RuleCache.set (src/core/Cache.ts lines 144-162): when the Map is at
or over maxSize the first (oldest) key is deleted, whether or not the
incoming key is already present; then the entry is stamped with
expireAt = now + ttl when the ttl is truthy and stored. -/
def RuleCache.set (c : RuleCache) (now : Nat) (key : String) (value : ValidationResult) :
    RuleCache :=
  if !c.enabled then c
  else
    let es :=
      if c.maxSize ≤ c.entries.length then
        match c.entries with
        | [] => ([] : List (String × CacheEntry))
        | _ :: rest => rest
      else c.entries
    let expireAt := if c.ttlTruthy then some (now + c.ttl.getD 0) else none
    { c with entries := assocSet es key { value := value, expireAt := expireAt } }

/-- RuleCache.has (src/core/Cache.ts lines 213-231). -/
def RuleCache.has (c : RuleCache) (now : Nat) (key : String) : Bool × RuleCache :=
  if !c.enabled then (false, c)
  else
    match assocLookup key c.entries with
    | none => (false, c)
    | some entry =>
      if entryExpired entry now then
        (false, { c with entries := assocDelete c.entries key })
      else
        (true, c)

/-- The size getter: number of Map entries. -/
def RuleCache.size (c : RuleCache) : Nat :=
  c.entries.length

/-- RuleCache.generateKey (src/core/Cache.ts lines 179-182): delegates
to fastHash and ignores the cache state. -/
def RuleCache.generateKey (_c : RuleCache) (value : JSValue) (ruleName : String)
    (params : Option JSValue) : String :=
  fastHash value ruleName params

/-! ## Result pool (src/core/Pool.ts) -/

/-- PoolOptions from the pool source lines 6-27. -/
structure PoolOptions where
  initialSize : Option Nat := none
  maxSize : Option Nat := none
  enabled : Option Bool := none
deriving Repr

/-- createResult / resetResult target state: every field at its default. -/
def blankResult : ValidationResult :=
  { valid := false, message := none, code := none, meta := none }

/-- ResultPool state. The free list is a stack: Array.prototype.push and
pop both act on the same end, modelled by the list head. -/
structure ResultPool where
  pool : List ValidationResult
  maxSize : Nat
  enabled : Bool
  acquiredCount : Nat
  releasedCount : Nat
  createdCount : Nat
deriving DecidableEq, Repr

/-- The ResultPool constructor (pool source lines 77-87): maxSize
defaults to 100, enabled to true, and initialSize (default 10) blank
objects are preallocated and counted as created. -/
def ResultPool.create (options : PoolOptions) : ResultPool :=
  let initialSize := options.initialSize.getD 10
  { pool := List.replicate initialSize blankResult
    maxSize := options.maxSize.getD 100
    enabled := options.enabled.getD true
    acquiredCount := 0
    releasedCount := 0
    createdCount := initialSize }

/-- ResultPool.acquire (pool source lines 127-145). -/
def ResultPool.acquire (p : ResultPool) : ValidationResult × ResultPool :=
  if !p.enabled then
    (blankResult, { p with createdCount := p.createdCount + 1 })
  else
    match p.pool with
    | r :: rest =>
      -- popped object is reset before being handed out
      let _ := r
      (blankResult, { p with acquiredCount := p.acquiredCount + 1, pool := rest })
    | [] =>
      (blankResult,
       { p with acquiredCount := p.acquiredCount + 1, createdCount := p.createdCount + 1 })

/-- ResultPool.release (pool source lines 161-174): count the release,
then reset and store the object only while the free list is below
maxSize; otherwise drop it. -/
def ResultPool.release (p : ResultPool) (r : ValidationResult) : ResultPool :=
  if !p.enabled then p
  else
    let p1 := { p with releasedCount := p.releasedCount + 1 }
    if p1.pool.length < p1.maxSize then
      let _ := r
      { p1 with pool := blankResult :: p1.pool }
    else p1

/-- ResultPool.releaseMany (pool source lines 180-184). -/
def ResultPool.releaseMany (p : ResultPool) (rs : List ValidationResult) : ResultPool :=
  rs.foldl ResultPool.release p

/-- The size getter: length of the free list. -/
def ResultPool.size (p : ResultPool) : Nat :=
  p.pool.length

/-! ## Rule-chain executor (src/core/Validator.ts)

Predicates are embedded by their observable outcome on a value: a
synchronous return, a synchronous throw, a Promise resolving to a
result, or a Promise rejecting. The async entry point awaits settled
promises in place, so both entry points are one evaluator indexed by
the isAsync flag passed to executeRule. The onError hook returns void
and is represented by whether it is configured plus an event recording
each invocation. Cache get/set calls and predicate invocations are
likewise recorded as events, tagged with the position of the rule in
the chain, so that frame claims about what was never invoked are
provable statements about the run. -/

/-- The four observable behaviours of validator(value, context). The
context argument is omitted: no embedded claim exercises it, and a
predicate closed over a fixed context is a function of the value. -/
inductive PredOutcome where
  | ok (r : ValidationResult)
  | thrown (msg : String)
  | asyncOk (r : ValidationResult)
  | asyncThrown (msg : String)

/-- ValidationRule from src/types/index.ts. The message field models
the string form; the function form is never exercised by the embedded
claims. The trigger field is unread by the executor. -/
structure ValidationRule where
  name : Option String := none
  validator : JSValue → PredOutcome
  message : Option String := none
  required : Bool := false

/-- Observable side effects of one executor run. -/
inductive VEvent where
  | cacheGet (i : Nat) (key : String)
  | cacheSet (i : Nat) (key : String)
  | predCall (i : Nat)
  | hookCall (msg : String)
deriving DecidableEq, Repr

/-- Mutable pieces threaded through one validate call. -/
structure RunState where
  cache : Option RuleCache
  pool : Option ResultPool
  events : List VEvent
deriving Repr

/-- Validator.isEmpty (src/core/Validator.ts lines 141-143):
value === null || value === undefined || value === two quotes. -/
def isEmptyValue (v : JSValue) : Bool :=
  v == .null || v == .undefined || v == .str ""

/-- Validator.createResult (src/core/Validator.ts lines 201-222): with
a pool, acquire an object and overwrite every field; without one, build
a fresh record. Either way the produced record has exactly the given
fields. -/
def vCreateResult (st : RunState) (valid : Bool)
    (message code meta : Option String) : ValidationResult × RunState :=
  match st.pool with
  | some p =>
    let (_r0, p1) := p.acquire
    ({ valid := valid, message := message, code := code, meta := meta },
     { st with pool := some p1 })
  | none =>
    ({ valid := valid, message := message, code := code, meta := meta }, st)

/-- The call this.onError(error, rule, value) guarded by the hook being
configured; recorded as an event carrying the error message. -/
def reportHook (hasOnError : Bool) (st : RunState) (msg : String) : RunState :=
  if hasOnError then { st with events := st.events ++ [VEvent.hookCall msg] } else st

/-- The catch branch and the Promise catch branch of executeRule
(src/core/Validator.ts lines 267-277 and 287-297): report to the hook,
then build { valid: false, code: RULE_ERROR } with the error message in
meta. -/
def ruleErrorResult (hasOnError : Bool) (st : RunState) (msg : String) :
    ValidationResult × RunState :=
  let st1 := reportHook hasOnError st msg
  vCreateResult st1 false (some "验证规则执行出错") (some "RULE_ERROR") (some msg)

/-- The message of the Error thrown for a Promise in sync mode
(src/core/Validator.ts line 282); rule.name || unknown uses truthiness. -/
def syncMisuseMessage (rule : ValidationRule) : String :=
  "规则 \"" ++ (match strOrElse rule.name (some "unknown") with
                | some s => s
                | none => "unknown")
    ++ "\" 是异步的，请使用 validate() 而非 validateSync()"

/-- Validator.executeRule (src/core/Validator.ts lines 256-298). Note
that the sync-misuse throw on line 282 sits inside the try block, so the
catch on line 287 converts it into a RULE_ERROR result instead of
letting it propagate. -/
def executeRule (hasOnError : Bool) (isAsync : Bool) (i : Nat)
    (rule : ValidationRule) (value : JSValue) (st : RunState) :
    ValidationResult × RunState :=
  let st0 := { st with events := st.events ++ [VEvent.predCall i] }
  match rule.validator value with
  | .ok r => (r, st0)
  | .thrown msg => ruleErrorResult hasOnError st0 msg
  | .asyncOk r =>
    if isAsync then (r, st0)
    else ruleErrorResult hasOnError st0 (syncMisuseMessage rule)
  | .asyncThrown msg =>
    if isAsync then ruleErrorResult hasOnError st0 msg
    else ruleErrorResult hasOnError st0 (syncMisuseMessage rule)

/-- Truthiness of rule.name in the guards of the cache helpers: an
absent name and the empty-string name both skip the cache. -/
def ruleNameKey (rule : ValidationRule) : Option String :=
  match rule.name with
  | some n => if n = "" then none else some n
  | none => none

/-- Validator.getCachedResult (src/core/Validator.ts lines 174-180). -/
def getCachedResult (i : Nat) (rule : ValidationRule) (value : JSValue) (now : Nat)
    (st : RunState) : Option ValidationResult × RunState :=
  match st.cache, ruleNameKey rule with
  | some c, some n =>
    let key := c.generateKey value n none
    let (res, c1) := c.get now key
    (res, { st with cache := some c1, events := st.events ++ [VEvent.cacheGet i key] })
  | _, _ => (none, st)

/-- Validator.setCachedResult (src/core/Validator.ts lines 188-193). -/
def setCachedResult (i : Nat) (rule : ValidationRule) (value : JSValue) (now : Nat)
    (result : ValidationResult) (st : RunState) : RunState :=
  match st.cache, ruleNameKey rule with
  | some c, some n =>
    let key := c.generateKey value n none
    { st with cache := some (c.set now key result),
              events := st.events ++ [VEvent.cacheSet i key] }
  | _, _ => st

/-- Validator.checkRequired (src/core/Validator.ts lines 152-166). -/
def checkRequired (rule : ValidationRule) (value : JSValue) (st : RunState) :
    Option ValidationResult × RunState :=
  if rule.required && isEmptyValue value then
    let (r, st1) := vCreateResult st false
      (strOrElse rule.message (some "此字段是必填项")) (some "REQUIRED") none
    (some r, st1)
  else (none, st)

/-- Validator.mergeRuleMessage (src/core/Validator.ts lines 232-246):
spread the result and override message with rule.message || the
message already on the result. -/
def mergeRuleMessage (result : ValidationResult) (rule : ValidationRule) :
    ValidationResult :=
  { result with message := strOrElse rule.message result.message }

/-- The shared rule loop of Validator.validate (lines 316-360) and
Validator.validateSync (lines 448-495); the two bodies are identical
except for the isAsync flag handed to executeRule. Rules carry their
position in the chain for event tagging. On an invalid result both
stopOnFirstError branches return the merged result, as in the source. -/
def runRules (hasOnError : Bool) (_stopOnFirstError : Bool) (isAsync : Bool)
    (value : JSValue) (now : Nat) :
    List (Nat × ValidationRule) → RunState → ValidationResult × RunState
  | [], st => vCreateResult st true none none none
  | (i, rule) :: rest, st =>
    match checkRequired rule value st with
    | (some r, st1) => (r, st1)
    | (none, st1) =>
      if isEmptyValue value then
        runRules hasOnError _stopOnFirstError isAsync value now rest st1
      else
        match getCachedResult i rule value now st1 with
        | (some r, st2) =>
          if r.valid then runRules hasOnError _stopOnFirstError isAsync value now rest st2
          else (mergeRuleMessage r rule, st2)
        | (none, st2) =>
          let (r, st3) := executeRule hasOnError isAsync i rule value st2
          let st4 := setCachedResult i rule value now r st3
          if r.valid then runRules hasOnError _stopOnFirstError isAsync value now rest st4
          else (mergeRuleMessage r rule, st4)

/-- Validator state after construction (src/core/Validator.ts lines
84-117): the rule list built by the fluent rule() calls, the optional
cache and pool, the stopOnFirstError flag and whether onError is set. -/
structure Validator where
  rules : List ValidationRule
  cache : Option RuleCache := none
  pool : Option ResultPool := none
  stopOnFirstError : Bool := true
  hasOnError : Bool := false

/-- Result of one entry-point call together with the final cache and
pool and the recorded events. -/
structure ValidateOutput where
  result : ValidationResult
  cache : Option RuleCache
  pool : Option ResultPool
  events : List VEvent

/-- One executor run. The empty-rule-list early return of the source
produces the same trivially valid result as the loop running off the
end, so the loop alone is the whole body. -/
def Validator.run (v : Validator) (isAsync : Bool) (value : JSValue) (now : Nat) :
    ValidateOutput :=
  let st : RunState := { cache := v.cache, pool := v.pool, events := [] }
  let (r, st1) := runRules v.hasOnError v.stopOnFirstError isAsync value now v.rules.enum st
  { result := r, cache := st1.cache, pool := st1.pool, events := st1.events }

/-- Validator.validate, the async entry point (awaits settle in place). -/
def Validator.validate (v : Validator) (value : JSValue) (now : Nat) : ValidateOutput :=
  v.run true value now

/-- Validator.validateSync (src/core/Validator.ts lines 448-495). -/
def Validator.validateSync (v : Validator) (value : JSValue) (now : Nat) : ValidateOutput :=
  v.run false value now

/-! ## Schema executor error aggregation (src/schema/SchemaValidator.ts)

The claim settled against this model quantifies over every schema and
every input record, so the per-field checker validateField (together
with the default substitution and transform steps, which only feed it)
is abstracted into the outcome it returns for each field/rule pair; the
aggregation loop of SchemaValidator.validate is translated verbatim
around those outcomes. -/

/-- The a || b fallback for a string with a non-optional default. -/
def strOrDefault (a : Option String) (d : String) : String :=
  match a with
  | some s => if s = "" then d else s
  | none => d

/-- The record returned by validateField for one field/rule pair. -/
structure FieldOutcome where
  valid : Bool
  message : Option String := none
  code : Option String := none
deriving DecidableEq, Repr

/-- One schema rule as the aggregation loop sees it: its declared type
string (copied into ValidationError.rule) and the validateField outcome
it produces on the record under validation. -/
structure SchemaRuleM where
  ruleType : Option String := none
  outcome : FieldOutcome
deriving DecidableEq, Repr

/-- ValidationError from src/types/index.ts as built on lines 91-96 of
SchemaValidator.ts. -/
structure ValidationError where
  field : String
  message : String
  code : Option String := none
  rule : Option String := none
deriving DecidableEq, Repr

/-- SchemaValidationResult from src/types/index.ts. -/
structure SchemaValidationResult where
  valid : Bool
  errors : List ValidationError
  errorMap : List (String × List ValidationError)
deriving DecidableEq, Repr

/-- Lines 91-96: build the ValidationError for a failed field/rule. -/
def mkValidationError (field : String) (rule : SchemaRuleM) : ValidationError :=
  { field := field
    message := strOrDefault rule.outcome.message "验证失败"
    code := rule.outcome.code
    rule := rule.ruleType }

/-- Lines 100-103: create the errorMap bucket for the field if missing,
then push the error onto it. -/
def addToErrorMap (m : List (String × List ValidationError)) (f : String)
    (e : ValidationError) : List (String × List ValidationError) :=
  match assocLookup f m with
  | some _ => m.map (fun p => if p.1 = f then (p.1, p.2 ++ [e]) else p)
  | none => m ++ [(f, [e])]

/-- The inner for-loop over one fields rules (lines 71-117): on a
failure push the error into both collections, then either return early
(stopOnFirstError) or break to the next field. The returned flag is
whether the early return fired. -/
def schemaRulesLoop (stop : Bool) (field : String) :
    List SchemaRuleM → List ValidationError → List (String × List ValidationError) →
    List ValidationError × List (String × List ValidationError) × Bool
  | [], errors, errorMap => (errors, errorMap, false)
  | r :: rest, errors, errorMap =>
    if r.outcome.valid then schemaRulesLoop stop field rest errors errorMap
    else
      let e := mkValidationError field r
      let errors1 := errors ++ [e]
      let errorMap1 := addToErrorMap errorMap field e
      if stop then (errors1, errorMap1, true)
      else (errors1, errorMap1, false)

/-- The outer for-loop over Object.entries(schema) (lines 67-118) and
the two result constructions (lines 107-111 and 120-124). -/
def schemaFieldsLoop (stop : Bool) :
    List (String × List SchemaRuleM) → List ValidationError →
    List (String × List ValidationError) → SchemaValidationResult
  | [], errors, errorMap =>
    { valid := errors.length = 0, errors := errors, errorMap := errorMap }
  | (f, rs) :: rest, errors, errorMap =>
    match schemaRulesLoop stop f rs errors errorMap with
    | (errors1, errorMap1, true) =>
      { valid := false, errors := errors1, errorMap := errorMap1 }
    | (errors1, errorMap1, false) =>
      schemaFieldsLoop stop rest errors1 errorMap1

/-- SchemaValidator.validate (lines 62-125). A schema is the ordered
field list with, per field, the rule list (a lone rule is wrapped into
a singleton by the source). -/
def schemaValidate (stop : Bool) (schema : List (String × List SchemaRuleM)) :
    SchemaValidationResult :=
  schemaFieldsLoop stop schema [] []

/-! ## Support definitions for the claim statements -/

/-- Fold a list of distinct raw keys into a cache with set, all storing
the same result. -/
def insertAll (c : RuleCache) (now : Nat) (r : ValidationResult) (ks : List String) :
    RuleCache :=
  ks.foldl (fun c k => c.set now k r) c

/-- The Map contents after inserting the listed keys with no ttl. -/
def entriesFor (r : ValidationResult) (ks : List String) : List (String × CacheEntry) :=
  ks.map (fun k => (k, { value := r, expireAt := none }))

/-- A ttl-free enabled cache holding exactly the listed keys in
insertion order. -/
def fifoCache (n : Nat) (r : ValidationResult) (l : List String) : RuleCache :=
  { entries := entriesFor r l, maxSize := n, ttl := none, enabled := true,
    hits := 0, misses := 0 }

/-- A rule passes on a value through the async entry point: its
predicate returns, directly or through a promise, a valid result. -/
def rulePasses (p : ValidationRule) (value : JSValue) : Prop :=
  match p.validator value with
  | .ok res => res.valid = true
  | .asyncOk res => res.valid = true
  | _ => False

/-- The single async rule of the failing input for the validateSync
misuse scenario, as in the repository test
(should detect async rules in validateSync). -/
def asyncTrueRule : ValidationRule :=
  { name := some "async-rule", validator := fun _ => .asyncOk { valid := true } }

/-- Validator holding only the async rule. -/
def asyncRuleValidator : Validator :=
  { rules := [asyncTrueRule] }

/-- An event is an admissible cache operation for an indexed rule list:
cache get/set events must come from a listed rule whose name is truthy;
other events are unconstrained. -/
def cacheOpOk (rs : List (Nat × ValidationRule)) : VEvent → Prop
  | .cacheGet i _ => ∃ rule, (i, rule) ∈ rs ∧ ruleNameKey rule ≠ none
  | .cacheSet i _ => ∃ rule, (i, rule) ∈ rs ∧ ruleNameKey rule ≠ none
  | .predCall _ => True
  | .hookCall _ => True

/-- A nameless always-valid rule. -/
def namelessOkRule : ValidationRule :=
  { validator := fun _ => PredOutcome.ok { valid := true } }

/-- Validator with one nameless rule and a configured cache. -/
def c5Validator : Validator :=
  { rules := [namelessOkRule], cache := some (RuleCache.create {}) }

/-- A required rule with a custom message. -/
def requiredRule : ValidationRule :=
  { validator := fun _ => PredOutcome.ok { valid := true }, message := some "need",
    required := true }

/-- Validator with a non-required rule ahead of a required one. -/
def c6Validator : Validator :=
  { rules := [namelessOkRule, requiredRule], cache := some (RuleCache.create {}) }

/-- A rule whose predicate throws synchronously. -/
def throwingRule : ValidationRule :=
  { name := some "boom", validator := fun _ => PredOutcome.thrown "kaput" }

/-- A two-field schema whose first field fails and second passes. -/
def c7Schema : List (String × List SchemaRuleM) :=
  [("a", [{ ruleType := some "email", outcome := { valid := false, code := some "ENUM" } }]),
   ("b", [{ outcome := { valid := true } }])]

/-- A full two-entry cache used to witness the update-in-place claim. -/
def c10Cache : RuleCache :=
  { entries := [("a", { value := blankResult }), ("b", { value := blankResult })],
    maxSize := 2, ttl := none, enabled := true, hits := 0, misses := 0 }

/-- Consistency of the flat error list with the per-field error map:
every error is in the bucket of its field, and every bucket member is a
recorded error for that field. -/
def emConsistent (errors : List ValidationError)
    (errorMap : List (String × List ValidationError)) : Prop :=
  (∀ e ∈ errors, ∃ l, assocLookup e.field errorMap = some l ∧ e ∈ l) ∧
  (∀ p ∈ errorMap, ∀ e ∈ p.2, e ∈ errors ∧ e.field = p.1)

/-! ## Association-list lemmas -/

theorem assocLookup_append {α : Type} (k : String) (l1 l2 : List (String × α)) :
    assocLookup k (l1 ++ l2) =
      match assocLookup k l1 with
      | some v => some v
      | none => assocLookup k l2 := by
  induction l1 with
  | nil => rfl
  | cons p l1 ih =>
    simp only [List.cons_append, assocLookup]
    split <;> simp [ih]

theorem assocLookup_eq_none {α : Type} (k : String) (es : List (String × α))
    (h : k ∉ es.map Prod.fst) : assocLookup k es = none := by
  induction es with
  | nil => rfl
  | cons p es ih =>
    simp only [List.map_cons, List.mem_cons] at h
    push_neg at h
    simp only [assocLookup]
    rw [if_neg (fun hpk => h.1 hpk.symm)]
    exact ih h.2

theorem assocLookup_isSome_of_mem {α : Type} (k : String) (es : List (String × α))
    (h : k ∈ es.map Prod.fst) : ∃ v, assocLookup k es = some v := by
  induction es with
  | nil => simp at h
  | cons p es ih =>
    simp only [assocLookup]
    by_cases hpk : p.1 = k
    · exact ⟨p.2, by simp [hpk]⟩
    · rw [if_neg hpk]
      refine ih ?_
      simp only [List.map_cons, List.mem_cons] at h
      rcases h with h | h
      · exact absurd h.symm hpk
      · exact h

theorem assocLookup_map_update {α : Type} (es : List (String × α)) (k : String) (v : α) :
    assocLookup k (es.map fun p => if p.1 = k then (k, v) else p) =
      (assocLookup k es).map (fun _ => v) := by
  induction es with
  | nil => rfl
  | cons p es ih =>
    by_cases hpk : p.1 = k
    · simp [assocLookup, hpk]
    · simp [assocLookup, hpk, ih]

theorem assocLookup_assocSet_self {α : Type} (es : List (String × α)) (k : String) (v : α) :
    assocLookup k (assocSet es k v) = some v := by
  unfold assocSet
  cases h : assocLookup k es with
  | none =>
    rw [assocLookup_append]
    simp [h, assocLookup]
  | some w =>
    rw [assocLookup_map_update, h]
    rfl

theorem assocSet_keys_of_mem {α : Type} (es : List (String × α)) (k : String) (v : α)
    (h : k ∈ es.map Prod.fst) :
    (assocSet es k v).map Prod.fst = es.map Prod.fst := by
  unfold assocSet
  obtain ⟨w, hw⟩ := assocLookup_isSome_of_mem k es h
  rw [hw]
  rw [List.map_map]
  refine List.map_congr_left ?_
  intro p _
  by_cases hpk : p.1 = k
  · simp [hpk]
  · simp [hpk]

theorem assocSet_fresh {α : Type} (es : List (String × α)) (k : String) (v : α)
    (h : k ∉ es.map Prod.fst) : assocSet es k v = es ++ [(k, v)] := by
  unfold assocSet
  rw [assocLookup_eq_none k es h]

theorem assocDelete_length {α : Type} (es : List (String × α)) (k : String) (v : α)
    (h : assocLookup k es = some v) :
    (assocDelete es k).length + 1 = es.length := by
  induction es with
  | nil => simp [assocLookup] at h
  | cons p es ih =>
    simp only [assocLookup] at h
    by_cases hpk : p.1 = k
    · simp [assocDelete, List.eraseP_cons, hpk]
    · rw [if_neg hpk] at h
      simp only [assocDelete, List.eraseP_cons, hpk, decide_False, cond_false,
        List.length_cons]
      have := ih h
      simp only [assocDelete] at this
      omega

/-! ## C1 — validateSync on an asynchronous rule

The spec, the doc comment on validateSync and the repository test
boundary.test.ts:223 all say the sync entry point throws when a
predicate returns a Promise. In the code the throw on line 282 of
Validator.ts sits inside the try whose catch (line 287) converts every
error into a RULE_ERROR result, so the call returns normally: the
exception never reaches the caller. The theorem evaluates the failing
input of that test and shows the returned result object. -/

/-- C1: calling validateSync on the async rule named async-rule with the
non-empty value "test" returns an ordinary ValidationResult with code
RULE_ERROR whose meta carries the misuse message, instead of raising:
the claimed hard failure is swallowed by the catch in executeRule. -/
theorem validateSync_async_rule_returns_rule_error :
    (asyncRuleValidator.validateSync (.str "test") 0).result =
      { valid := false, message := some "验证规则执行出错", code := some "RULE_ERROR",
        meta := some ("规则 \"async-rule\" 是异步的，请使用 validate() 而非 validateSync()") } := by
  rfl

/-! ## C3 — FIFO eviction -/

/-- C3 counterexample: the claim quantifies over every maxSize n, but a
cache constructed with maxSize = 0 keeps the single key just inserted
(inserting n + k = 1 distinct keys, the claim asserts has returns false
for it, the last n = 0 keys being the only ones present). -/
theorem cache_fifo_maxSize_zero_cex :
    ((insertAll (RuleCache.create { maxSize := some 0 }) 7 blankResult ["a"]).has 7 "a").1
      = true := by
  decide

theorem entriesFor_keys (r : ValidationResult) (l : List String) :
    (entriesFor r l).map Prod.fst = l := by
  simp [entriesFor, List.map_map, Function.comp_def]

theorem entriesFor_length (r : ValidationResult) (l : List String) :
    (entriesFor r l).length = l.length := by
  simp [entriesFor]

theorem entriesFor_append (r : ValidationResult) (l1 l2 : List String) :
    entriesFor r (l1 ++ l2) = entriesFor r l1 ++ entriesFor r l2 := by
  simp [entriesFor]

theorem assocLookup_entriesFor_mem (r : ValidationResult) (l : List String) (key : String)
    (h : key ∈ l) :
    assocLookup key (entriesFor r l) = some { value := r, expireAt := none } := by
  induction l with
  | nil => simp at h
  | cons a l ih =>
    simp only [entriesFor, List.map_cons, assocLookup]
    by_cases hak : a = key
    · simp [hak]
    · rw [if_neg hak]
      rcases List.mem_cons.mp h with h1 | h1
      · exact absurd h1.symm hak
      · exact ih h1

/-- One fresh-key insertion advances the retained window by one:
below capacity it appends, at capacity it drops the oldest entry and
appends. -/
theorem fifoCache_set_fresh (n : Nat) (hn : 1 ≤ n) (now : Nat) (r : ValidationResult)
    (hist : List String) (k : String) (hk : k ∉ hist) :
    (fifoCache n r (hist.drop (hist.length - n))).set now k r =
      fifoCache n r ((hist ++ [k]).drop ((hist ++ [k]).length - n)) := by
  have hkdrop : k ∉ hist.drop (hist.length - n) := fun hmem => hk (List.drop_subset _ _ hmem)
  by_cases hlt : hist.length < n
  · have h0 : hist.length - n = 0 := by omega
    have h1 : (hist ++ [k]).length - n = 0 := by
      simp only [List.length_append, List.length_cons, List.length_nil]
      omega
    rw [h0, h1, List.drop_zero, List.drop_zero]
    simp only [RuleCache.set, fifoCache, RuleCache.ttlTruthy, Bool.not_true,
      Bool.false_eq_true, if_false]
    rw [if_neg (by rw [entriesFor_length]; omega)]
    rw [assocSet_fresh _ _ _ (by rw [entriesFor_keys]; exact hk)]
    rw [entriesFor_append]
    rfl
  · have hge : n ≤ hist.length := by omega
    have hLlen : (hist.drop (hist.length - n)).length = n := by
      simp only [List.length_drop]
      omega
    cases hL : hist.drop (hist.length - n) with
    | nil =>
      exfalso
      rw [hL] at hLlen
      simp only [List.length_nil] at hLlen
      omega
    | cons d rest =>
      have hrest : (hist ++ [k]).drop ((hist ++ [k]).length - n) = rest ++ [k] := by
        have hidx : (hist ++ [k]).length - n = (hist.length - n) + 1 := by
          simp only [List.length_append, List.length_cons, List.length_nil]
          omega
        rw [hidx, List.drop_append_of_le_length (by omega)]
        have hdr : hist.drop ((hist.length - n) + 1) = rest := by
          have hdd : hist.drop ((hist.length - n) + 1) =
              (hist.drop (hist.length - n)).drop 1 := by
            rw [List.drop_drop]
          rw [hdd, hL]
          rfl
        rw [hdr]
      rw [hrest]
      simp only [RuleCache.set, fifoCache, RuleCache.ttlTruthy, Bool.not_true,
        Bool.false_eq_true, if_false]
      rw [if_pos (by rw [entriesFor_length]; rw [hL] at hLlen; omega)]
      have hmatch : (match entriesFor r (d :: rest) with
          | [] => ([] : List (String × CacheEntry))
          | _ :: rest => rest) = entriesFor r rest := rfl
      rw [hmatch]
      have hkrest : k ∉ rest := by
        intro hmem
        exact hkdrop (by rw [hL]; exact List.mem_cons_of_mem d hmem)
      rw [assocSet_fresh _ _ _ (by rw [entriesFor_keys]; exact hkrest)]
      rw [entriesFor_append]
      rfl

/-- Folding distinct keys into a ttl-free cache retains exactly the
most recent window of n keys. -/
theorem insertAll_fifo (n : Nat) (hn : 1 ≤ n) (now : Nat) (r : ValidationResult) :
    ∀ (ks hist : List String), (hist ++ ks).Nodup →
      insertAll (fifoCache n r (hist.drop (hist.length - n))) now r ks =
        fifoCache n r ((hist ++ ks).drop ((hist ++ ks).length - n)) := by
  intro ks
  induction ks with
  | nil =>
    intro hist _
    simp [insertAll]
  | cons k ks ih =>
    intro hist hnd
    have hassoc : hist ++ k :: ks = (hist ++ [k]) ++ ks := by simp
    have hk : k ∉ hist := by
      rw [List.nodup_append] at hnd
      exact fun hmem => hnd.2.2 hmem (List.mem_cons_self k ks)
    have hstep : insertAll (fifoCache n r (hist.drop (hist.length - n))) now r (k :: ks) =
        insertAll ((fifoCache n r (hist.drop (hist.length - n))).set now k r) now r ks := rfl
    rw [hstep, fifoCache_set_fresh n hn now r hist k hk]
    have hnd2 : ((hist ++ [k]) ++ ks).Nodup := by rw [← hassoc]; exact hnd
    have h2 := ih (hist ++ [k]) hnd2
    rw [h2, ← hassoc]

/-- C3 amended: for every cache constructed with maxSize n at least 1
(a cache built with maxSize = 0 deletes the oldest entry only before
each insertion and therefore always retains the most recent key),
inserting n + k distinct keys from empty leaves exactly the last n keys
visible through has, the oldest-inserted keys having been evicted in
order. -/
theorem cache_fifo_eviction (n k : Nat) (hn : 1 ≤ n) (hk : 1 ≤ k) (now : Nat)
    (r : ValidationResult) (ks : List String) (hlen : ks.length = n + k) (hnd : ks.Nodup) :
    (∀ key ∈ ks.drop k,
       ((insertAll (RuleCache.create { maxSize := some n }) now r ks).has now key).1 = true) ∧
    (∀ key ∈ ks.take k,
       ((insertAll (RuleCache.create { maxSize := some n }) now r ks).has now key).1
         = false) := by
  have hcreate : RuleCache.create { maxSize := some n } = fifoCache n r [] := rfl
  have h0 := insertAll_fifo n hn now r ks [] (by simpa using hnd)
  simp only [List.nil_append, List.length_nil, Nat.zero_sub, List.drop_zero] at h0
  have hdropk : ks.length - n = k := by omega
  rw [hdropk] at h0
  rw [hcreate, h0]
  constructor
  · intro key hmem
    simp only [RuleCache.has, fifoCache, Bool.not_true, Bool.false_eq_true, if_false]
    rw [assocLookup_entriesFor_mem r _ key hmem]
    rfl
  · intro key hmem
    have hnotin : key ∉ ks.drop k := by
      have hsplit : ks.take k ++ ks.drop k = ks := List.take_append_drop k ks
      have hnd2 : (ks.take k ++ ks.drop k).Nodup := by rw [hsplit]; exact hnd
      rw [List.nodup_append] at hnd2
      exact fun hd => hnd2.2.2 hmem hd
    simp only [RuleCache.has, fifoCache, Bool.not_true, Bool.false_eq_true, if_false]
    rw [assocLookup_eq_none key _ (by rw [entriesFor_keys]; exact hnotin)]

/-- C3 witness: maxSize 1, keys a then b: b survives, a was evicted. -/
theorem cache_fifo_eviction_witness :
    (∀ key ∈ (["a", "b"] : List String).drop 1,
       ((insertAll (RuleCache.create { maxSize := some 1 }) 0 blankResult ["a", "b"]).has
          0 key).1 = true) ∧
    (∀ key ∈ (["a", "b"] : List String).take 1,
       ((insertAll (RuleCache.create { maxSize := some 1 }) 0 blankResult ["a", "b"]).has
          0 key).1 = false) :=
  cache_fifo_eviction 1 1 (by decide) (by decide) 0 blankResult ["a", "b"]
    (by decide) (by decide)

/-! ## C4 — lazy ttl expiry -/

/-- C4 counterexample: the claim quantifies over every ttl t, but with
ttl = 0 the stamp expression this.ttl ? now + ttl : undefined is falsy,
so the entry is stored without expireAt: a get far later than s + t = 0
still returns the value, counts a hit, and leaves size at 1. -/
theorem cache_ttl_zero_cex :
    ((((RuleCache.create { ttl := some 0 }).set 0 "a" blankResult).get 5 "a").1
        = some blankResult) ∧
    ((((RuleCache.create { ttl := some 0 }).set 0 "a" blankResult).get 5 "a").2.size = 1) ∧
    ((((RuleCache.create { ttl := some 0 }).set 0 "a" blankResult).get 5 "a").2.hits = 1) := by
  refine ⟨by decide, by decide, by decide⟩

theorem set_lookup_self (c : RuleCache) (now : Nat) (key : String) (r : ValidationResult)
    (hen : c.enabled = true) :
    assocLookup key (c.set now key r).entries =
      some { value := r,
             expireAt := if c.ttlTruthy then some (now + c.ttl.getD 0) else none } := by
  simp only [RuleCache.set, hen, Bool.not_true, Bool.false_eq_true, if_false]
  exact assocLookup_assocSet_self _ _ _

theorem set_preserves_fields (c : RuleCache) (now : Nat) (key : String) (r : ValidationResult) :
    (c.set now key r).enabled = c.enabled ∧ (c.set now key r).misses = c.misses ∧
    (c.set now key r).maxSize = c.maxSize ∧ (c.set now key r).ttl = c.ttl ∧
    (c.set now key r).hits = c.hits := by
  unfold RuleCache.set
  split <;> simp

/-- C4 amended: for an enabled cache whose construction-time ttl t is
positive (a ttl of 0 is falsy in the stamp expression and disables
expiry), a get of a key stored at time s, issued strictly later than
s + t, returns absent, shrinks size by one by deleting the lapsed
entry, and counts a miss. -/
theorem cache_ttl_lazy_expiry (c : RuleCache) (t s now : Nat) (key : String)
    (r : ValidationResult) (htt : c.ttl = some t) (ht : 1 ≤ t) (hen : c.enabled = true)
    (hnow : s + t < now) :
    ((c.set s key r).get now key).1 = none ∧
    ((c.set s key r).get now key).2.size + 1 = (c.set s key r).size ∧
    ((c.set s key r).get now key).2.misses = (c.set s key r).misses + 1 := by
  have hT : c.ttlTruthy = true := by
    simp only [RuleCache.ttlTruthy, htt]
    simp only [Bool.not_eq_true', decide_eq_false_iff_not]
    omega
  have hlook := set_lookup_self c s key r hen
  rw [hT, if_pos rfl, htt] at hlook
  simp only [Option.getD_some] at hlook
  have hen1 : (c.set s key r).enabled = true :=
    (set_preserves_fields c s key r).1.trans hen
  have hexp : entryExpired { value := r, expireAt := some (s + t) } now = true := by
    simp only [entryExpired, Bool.and_eq_true, Bool.not_eq_true', decide_eq_false_iff_not,
      decide_eq_true_eq]
    omega
  constructor
  · simp [RuleCache.get, hen1, hlook, hexp]
  constructor
  · simp only [RuleCache.get, hen1, Bool.not_true, Bool.false_eq_true, if_false, hlook, hexp,
      if_true, RuleCache.size]
    exact assocDelete_length _ _ _ hlook
  · simp [RuleCache.get, hen1, hlook, hexp]

/-- C4 witness: cache with ttl 1, key stored at time 0, read at time 2. -/
theorem cache_ttl_lazy_expiry_witness :
    ((((RuleCache.create { ttl := some 1 }).set 0 "a" blankResult).get 2 "a").1 = none ∧
     (((RuleCache.create { ttl := some 1 }).set 0 "a" blankResult).get 2 "a").2.size + 1 =
       ((RuleCache.create { ttl := some 1 }).set 0 "a" blankResult).size ∧
     (((RuleCache.create { ttl := some 1 }).set 0 "a" blankResult).get 2 "a").2.misses =
       ((RuleCache.create { ttl := some 1 }).set 0 "a" blankResult).misses + 1) :=
  cache_ttl_lazy_expiry (RuleCache.create { ttl := some 1 }) 1 0 2 "a" blankResult
    rfl (by decide) rfl (by decide)

/-! ## C10 — set on a full cache with an already-present key -/

/-- C10: the overflow check in set fires on raw size without looking at
whether the incoming key is already stored, so on a full cache an
update of a present key that is not the oldest entry still evicts the
unrelated oldest key and leaves the cache one short of maxSize. -/
theorem set_full_cache_existing_key_evicts (c : RuleCache) (now : Nat) (key : String)
    (r : ValidationResult) (d : String × CacheEntry) (rest : List (String × CacheEntry))
    (hen : c.enabled = true) (hc : c.entries = d :: rest)
    (hfull : c.entries.length = c.maxSize)
    (hnd : (c.entries.map Prod.fst).Nodup)
    (hmem : key ∈ rest.map Prod.fst) :
    (c.set now key r).size + 1 = c.maxSize ∧
    d.1 ∉ (c.set now key r).entries.map Prod.fst ∧
    key ∈ (c.set now key r).entries.map Prod.fst := by
  have hcond : c.maxSize ≤ c.entries.length := hfull.ge
  have hentries : (c.set now key r).entries =
      assocSet rest key
        { value := r, expireAt := if c.ttlTruthy then some (now + c.ttl.getD 0) else none } := by
    simp only [RuleCache.set, hen, Bool.not_true, Bool.false_eq_true, if_false, hc]
    rw [if_pos (hc ▸ hcond)]
  have hkeys := assocSet_keys_of_mem rest key
    { value := r, expireAt := if c.ttlTruthy then some (now + c.ttl.getD 0) else none } hmem
  have hdnotin : d.1 ∉ rest.map Prod.fst := by
    rw [hc] at hnd
    simp only [List.map_cons, List.nodup_cons] at hnd
    exact hnd.1
  refine ⟨?_, ?_, ?_⟩
  · have hlen : (c.set now key r).entries.length = rest.length := by
      have h1 := congrArg List.length hkeys
      simpa [hentries] using h1
    have : c.maxSize = rest.length + 1 := by
      rw [← hfull, hc, List.length_cons]
    simp [RuleCache.size, hlen, this]
  · rw [hentries, hkeys]
    exact hdnotin
  · rw [hentries, hkeys]
    exact hmem

/-- C10 witness: a full two-entry cache where the updated key is the
newer of the two. -/
theorem set_full_cache_existing_key_evicts_witness :
    (c10Cache.set 9 "b" blankResult).size + 1 = 2 ∧
    "a" ∉ (c10Cache.set 9 "b" blankResult).entries.map Prod.fst ∧
    "b" ∈ (c10Cache.set 9 "b" blankResult).entries.map Prod.fst := by
  have h := set_full_cache_existing_key_evicts c10Cache 9 "b" blankResult
    ("a", { value := blankResult }) [("b", { value := blankResult })]
    rfl rfl rfl (by decide) (by decide)
  exact h

/-! ## C8 — pool release cap -/

theorem releaseMany_size_min (n : Nat) :
    ∀ (rs : List ValidationResult) (p : ResultPool),
      p.enabled = true → p.maxSize = n → p.size ≤ n →
      (p.releaseMany rs).size = min (p.size + rs.length) n := by
  intro rs
  induction rs with
  | nil =>
    intro p he hm hs
    have hid : p.releaseMany [] = p := rfl
    rw [hid]
    simp only [List.length_nil, Nat.add_zero]
    omega
  | cons r rs ih =>
    intro p he hm hs
    have hstep : p.releaseMany (r :: rs) = (p.release r).releaseMany rs := rfl
    rw [hstep]
    by_cases hlt : p.pool.length < p.maxSize
    · have hrel : p.release r =
          { p with releasedCount := p.releasedCount + 1, pool := blankResult :: p.pool } := by
        simp [ResultPool.release, he, hlt]
      rw [hrel]
      have h2 := ih { p with releasedCount := p.releasedCount + 1, pool := blankResult :: p.pool }
        he hm (by simp only [ResultPool.size, List.length_cons]; omega)
      simp only [ResultPool.size, List.length_cons] at h2 ⊢
      rw [h2]
      omega
    · have hrel : p.release r = { p with releasedCount := p.releasedCount + 1 } := by
        simp [ResultPool.release, he, hlt]
      rw [hrel]
      have h2 := ih { p with releasedCount := p.releasedCount + 1 } he hm hs
      simp only [ResultPool.size] at h2 ⊢
      rw [h2]
      simp only [List.length_cons, ResultPool.size] at hs ⊢
      omega

/-- C8 amended: for a pool constructed enabled (the default) with
initialSize at most maxSize = n, handing back n + k objects through
release leaves the stored-object count at exactly n; release resets and
stores only while the free list is below n and drops otherwise. -/
theorem pool_release_caps_at_maxSize (i n kk : Nat) (hi : i ≤ n)
    (rs : List ValidationResult) (hlen : rs.length = n + kk) :
    ((ResultPool.create { initialSize := some i, maxSize := some n }).releaseMany rs).size
      = n := by
  have hsize : (ResultPool.create { initialSize := some i, maxSize := some n }).size = i := by
    simp [ResultPool.create, ResultPool.size]
  have h := releaseMany_size_min n rs
    (ResultPool.create { initialSize := some i, maxSize := some n })
    rfl rfl (by rw [hsize]; exact hi)
  rw [h, hsize, hlen]
  omega

/-- C8 witness: pool with initialSize 2 and maxSize 3, releasing 3
objects. -/
theorem pool_release_caps_at_maxSize_witness :
    ((ResultPool.create { initialSize := some 2, maxSize := some 3 }).releaseMany
        (List.replicate 3 blankResult)).size = 3 :=
  pool_release_caps_at_maxSize 2 3 0 (by decide) (List.replicate 3 blankResult) (by decide)

/-- C8 counterexample: the claim quantifies over every pool with
maxSize = n, but the constructor preallocates initialSize (default 10)
objects without clamping to maxSize. A pool built with maxSize = 5
starts at size 10, release never stores while the free list is at or
above maxSize, and handing back n + k = 5 objects leaves size 10, not
the claimed 5. -/
theorem pool_release_initial_exceeds_max_cex :
    ((ResultPool.create { maxSize := some 5 }).releaseMany
        (List.replicate 5 blankResult)).size = 10 := by
  decide

/-! ## C9 — key sensitivity to the rule name -/

set_option maxRecDepth 8000 in
/-- C9 counterexample: generateKey folds the combined string through
djb2 into 32 bits, so distinct rule names can collide on the same
value: with value "v", the names yqvvuchi and hmjzpxhv both produce the
key vhijvy. -/
theorem generateKey_distinct_rule_names_collide :
    ("yqvvuchi" : String) ≠ "hmjzpxhv" ∧
    (RuleCache.create {}).generateKey (.str "v") "yqvvuchi" none =
      (RuleCache.create {}).generateKey (.str "v") "hmjzpxhv" none := by
  exact ⟨by decide, by decide⟩

/-- C9 amended: the combined pre-hash key string is injective in the
rule name for a fixed value and parameters (the name is a prefix ahead
of a shared suffix), so distinct rule names yield distinct simpleKey
strings; the fastHash keys distinguish rule names only up to 32-bit
djb2 collisions such as the exhibited one. -/
theorem simpleKey_distinct_rule_names (value : JSValue) (params : Option JSValue)
    (n1 n2 : String) (h : n1 ≠ n2) :
    simpleKey value n1 params ≠ simpleKey value n2 params := by
  intro heq
  apply h
  unfold simpleKey combinedKeyString at heq
  have hd := congrArg String.data heq
  simp only [String.data_append, List.append_assoc] at hd
  have hcancel := List.append_cancel_right hd
  cases n1
  cases n2
  simp only at hcancel
  rw [hcancel]

/-- C9 amended witness: names a and b with a null value. -/
theorem simpleKey_distinct_rule_names_witness :
    simpleKey JSValue.null "a" none ≠ simpleKey JSValue.null "b" none :=
  simpleKey_distinct_rule_names JSValue.null none "a" "b" (by decide)

/-! ## Rule-chain executor lemmas -/

theorem vCreateResult_result (st : RunState) (b : Bool) (m c mt : Option String) :
    (vCreateResult st b m c mt).1 =
      { valid := b, message := m, code := c, meta := mt } := by
  unfold vCreateResult
  cases st.pool <;> rfl

theorem vCreateResult_cache (st : RunState) (b : Bool) (m c mt : Option String) :
    (vCreateResult st b m c mt).2.cache = st.cache := by
  unfold vCreateResult
  cases st.pool <;> rfl

theorem vCreateResult_events (st : RunState) (b : Bool) (m c mt : Option String) :
    (vCreateResult st b m c mt).2.events = st.events := by
  unfold vCreateResult
  cases st.pool <;> rfl

theorem reportHook_cache (h : Bool) (st : RunState) (msg : String) :
    (reportHook h st msg).cache = st.cache := by
  unfold reportHook
  split <;> rfl

theorem reportHook_events (h : Bool) (st : RunState) (msg : String) :
    (reportHook h st msg).events =
      st.events ++ (if h then [VEvent.hookCall msg] else []) := by
  unfold reportHook
  split <;> simp_all

theorem ruleErrorResult_result (h : Bool) (st : RunState) (msg : String) :
    (ruleErrorResult h st msg).1 =
      { valid := false, message := some "验证规则执行出错", code := some "RULE_ERROR",
        meta := some msg } := by
  unfold ruleErrorResult
  rw [vCreateResult_result]

theorem ruleErrorResult_cache (h : Bool) (st : RunState) (msg : String) :
    (ruleErrorResult h st msg).2.cache = st.cache := by
  unfold ruleErrorResult
  rw [vCreateResult_cache, reportHook_cache]

theorem ruleErrorResult_events (h : Bool) (st : RunState) (msg : String) :
    (ruleErrorResult h st msg).2.events =
      st.events ++ (if h then [VEvent.hookCall msg] else []) := by
  unfold ruleErrorResult
  rw [vCreateResult_events, reportHook_events]

theorem checkRequired_cache (rule : ValidationRule) (value : JSValue) (st : RunState) :
    (checkRequired rule value st).2.cache = st.cache := by
  unfold checkRequired
  split
  · exact vCreateResult_cache st false _ _ _
  · rfl

theorem checkRequired_events (rule : ValidationRule) (value : JSValue) (st : RunState) :
    (checkRequired rule value st).2.events = st.events := by
  unfold checkRequired
  split
  · exact vCreateResult_events st false _ _ _
  · rfl

theorem checkRequired_nonempty (rule : ValidationRule) (value : JSValue) (st : RunState)
    (hne : isEmptyValue value = false) :
    checkRequired rule value st = (none, st) := by
  simp [checkRequired, hne]

theorem getCachedResult_name_none (i : Nat) (rule : ValidationRule) (value : JSValue)
    (now : Nat) (st : RunState) (hn : ruleNameKey rule = none) :
    getCachedResult i rule value now st = (none, st) := by
  unfold getCachedResult
  rw [hn]
  cases st.cache <;> rfl

theorem getCachedResult_cache_none (i : Nat) (rule : ValidationRule) (value : JSValue)
    (now : Nat) (st : RunState) (hc : st.cache = none) :
    getCachedResult i rule value now st = (none, st) := by
  unfold getCachedResult
  rw [hc]

theorem getCachedResult_events_prov (i : Nat) (rule : ValidationRule) (value : JSValue)
    (now : Nat) (st : RunState) :
    ∃ G, (getCachedResult i rule value now st).2.events = st.events ++ G ∧
      ∀ e ∈ G, cacheOpOk [(i, rule)] e := by
  unfold getCachedResult
  cases hc : st.cache with
  | none =>
    cases ruleNameKey rule <;> exact ⟨[], by simp, by simp⟩
  | some c =>
    cases hn : ruleNameKey rule with
    | none => exact ⟨[], by simp, by simp⟩
    | some n =>
      refine ⟨[VEvent.cacheGet i (c.generateKey value n none)], rfl, ?_⟩
      intro e he
      rw [List.mem_singleton] at he
      subst he
      exact ⟨rule, List.mem_singleton_self _, by rw [hn]; exact Option.some_ne_none n⟩

theorem setCachedResult_name_none (i : Nat) (rule : ValidationRule) (value : JSValue)
    (now : Nat) (r : ValidationResult) (st : RunState) (hn : ruleNameKey rule = none) :
    setCachedResult i rule value now r st = st := by
  unfold setCachedResult
  rw [hn]
  cases st.cache <;> rfl

theorem setCachedResult_events_prov (i : Nat) (rule : ValidationRule) (value : JSValue)
    (now : Nat) (r : ValidationResult) (st : RunState) :
    ∃ S, (setCachedResult i rule value now r st).events = st.events ++ S ∧
      ∀ e ∈ S, cacheOpOk [(i, rule)] e := by
  unfold setCachedResult
  cases hc : st.cache with
  | none =>
    cases ruleNameKey rule <;> exact ⟨[], by simp, by simp⟩
  | some c =>
    cases hn : ruleNameKey rule with
    | none => exact ⟨[], by simp, by simp⟩
    | some n =>
      refine ⟨[VEvent.cacheSet i (c.generateKey value n none)], rfl, ?_⟩
      intro e he
      rw [List.mem_singleton] at he
      subst he
      exact ⟨rule, List.mem_singleton_self _, by rw [hn]; exact Option.some_ne_none n⟩

theorem executeRule_cache (h a : Bool) (i : Nat) (rule : ValidationRule) (value : JSValue)
    (st : RunState) :
    (executeRule h a i rule value st).2.cache = st.cache := by
  unfold executeRule
  cases hv : rule.validator value with
  | ok r => rfl
  | thrown msg => exact ruleErrorResult_cache _ _ _
  | asyncOk r =>
    cases a
    · exact ruleErrorResult_cache _ _ _
    · rfl
  | asyncThrown msg =>
    cases a
    · exact ruleErrorResult_cache _ _ _
    · exact ruleErrorResult_cache _ _ _

theorem executeRule_events_prov (h a : Bool) (i : Nat) (rule : ValidationRule)
    (value : JSValue) (st : RunState) :
    ∃ E, (executeRule h a i rule value st).2.events = st.events ++ E ∧
      ∀ e ∈ E, cacheOpOk ([] : List (Nat × ValidationRule)) e := by
  unfold executeRule
  cases hv : rule.validator value with
  | ok r =>
    refine ⟨[VEvent.predCall i], rfl, ?_⟩
    intro e he
    rw [List.mem_singleton] at he
    subst he
    trivial
  | thrown msg =>
    refine ⟨[VEvent.predCall i] ++ (if h then [VEvent.hookCall msg] else []), ?_, ?_⟩
    · simp [ruleErrorResult_events]
    · intro e he
      rcases List.mem_append.mp he with h1 | h1
      · rw [List.mem_singleton] at h1; subst h1; trivial
      · rcases h with _ | _ <;> simp_all <;> subst h1 <;> trivial
  | asyncOk r =>
    cases a
    · refine ⟨[VEvent.predCall i] ++
        (if h then [VEvent.hookCall (syncMisuseMessage rule)] else []), ?_, ?_⟩
      · simp [ruleErrorResult_events]
      · intro e he
        rcases List.mem_append.mp he with h1 | h1
        · rw [List.mem_singleton] at h1; subst h1; trivial
        · rcases h with _ | _ <;> simp_all <;> subst h1 <;> trivial
    · refine ⟨[VEvent.predCall i], rfl, ?_⟩
      intro e he
      rw [List.mem_singleton] at he
      subst he
      trivial
  | asyncThrown msg =>
    cases a
    · refine ⟨[VEvent.predCall i] ++
        (if h then [VEvent.hookCall (syncMisuseMessage rule)] else []), ?_, ?_⟩
      · simp [ruleErrorResult_events]
      · intro e he
        rcases List.mem_append.mp he with h1 | h1
        · rw [List.mem_singleton] at h1; subst h1; trivial
        · rcases h with _ | _ <;> simp_all <;> subst h1 <;> trivial
    · refine ⟨[VEvent.predCall i] ++ (if h then [VEvent.hookCall msg] else []), ?_, ?_⟩
      · simp [ruleErrorResult_events]
      · intro e he
        rcases List.mem_append.mp he with h1 | h1
        · rw [List.mem_singleton] at h1; subst h1; trivial
        · rcases h with _ | _ <;> simp_all <;> subst h1 <;> trivial

theorem cacheOpOk_mono (rs rs' : List (Nat × ValidationRule))
    (hsub : ∀ p ∈ rs, p ∈ rs') (e : VEvent) (h : cacheOpOk rs e) : cacheOpOk rs' e := by
  cases e with
  | cacheGet i key =>
    obtain ⟨rule, hmem, hname⟩ := h
    exact ⟨rule, hsub _ hmem, hname⟩
  | cacheSet i key =>
    obtain ⟨rule, hmem, hname⟩ := h
    exact ⟨rule, hsub _ hmem, hname⟩
  | predCall i => trivial
  | hookCall msg => trivial

/-- Every event recorded by the rule loop beyond the incoming ones is an
admissible cache operation for the processed rules (or a predicate or
hook event). -/
theorem runRules_events_prov (h s a : Bool) (value : JSValue) (now : Nat) :
    ∀ (rs : List (Nat × ValidationRule)) (st : RunState),
      ∃ tail, (runRules h s a value now rs st).2.events = st.events ++ tail ∧
        ∀ e ∈ tail, cacheOpOk rs e := by
  intro rs
  induction rs with
  | nil =>
    intro st
    refine ⟨[], ?_, by simp⟩
    simp only [runRules]
    rw [vCreateResult_events]
    simp
  | cons p rest ih =>
    intro st
    obtain ⟨i, rule⟩ := p
    have hsub1 : ∀ q ∈ [(i, rule)], q ∈ (i, rule) :: rest := by
      intro q hq
      rw [List.mem_singleton] at hq
      subst hq
      exact List.mem_cons_self _ _
    have hsub2 : ∀ q ∈ rest, q ∈ (i, rule) :: rest := fun q hq => List.mem_cons_of_mem _ hq
    have hsub0 : ∀ q ∈ ([] : List (Nat × ValidationRule)), q ∈ (i, rule) :: rest := by
      intro q hq
      exact absurd hq (List.not_mem_nil q)
    rcases hcr : checkRequired rule value st with ⟨creq, st1⟩
    have hev1 : st1.events = st.events := by
      have hh := checkRequired_events rule value st
      rw [hcr] at hh
      exact hh
    simp only [runRules]
    rw [hcr]
    cases creq with
    | some r =>
      exact ⟨[], by rw [hev1]; simp, by simp⟩
    | none =>
      by_cases hemp : isEmptyValue value = true
      · simp only [hemp, if_true]
        obtain ⟨tail, htail, hok⟩ := ih st1
        exact ⟨tail, by rw [htail, hev1],
          fun e he => cacheOpOk_mono rest _ hsub2 e (hok e he)⟩
      · have hemp2 : isEmptyValue value = false := by
          rwa [Bool.not_eq_true] at hemp
        simp only [hemp2, Bool.false_eq_true, if_false]
        rcases hg : getCachedResult i rule value now st1 with ⟨cres, st2⟩
        obtain ⟨G, hG, hGok⟩ := getCachedResult_events_prov i rule value now st1
        rw [hg] at hG
        cases cres with
        | some r =>
          by_cases hval : r.valid = true
          · simp only [hval, if_true]
            obtain ⟨tail, htail, hok⟩ := ih st2
            refine ⟨G ++ tail, ?_, ?_⟩
            · rw [htail, hG, hev1, List.append_assoc]
            · intro e he
              rcases List.mem_append.mp he with h1 | h1
              · exact cacheOpOk_mono _ _ hsub1 e (hGok e h1)
              · exact cacheOpOk_mono rest _ hsub2 e (hok e h1)
          · have hval2 : r.valid = false := by rwa [Bool.not_eq_true] at hval
            simp only [hval2, Bool.false_eq_true, if_false]
            refine ⟨G, ?_, ?_⟩
            · rw [hG, hev1]
            · intro e he
              exact cacheOpOk_mono _ _ hsub1 e (hGok e he)
        | none =>
          rcases he : executeRule h a i rule value st2 with ⟨r, st3⟩
          obtain ⟨E, hE, hEok⟩ := executeRule_events_prov h a i rule value st2
          rw [he] at hE
          obtain ⟨S, hS, hSok⟩ := setCachedResult_events_prov i rule value now r st3
          dsimp only
          rw [he]
          dsimp only
          by_cases hval : r.valid = true
          · simp only [hval, if_true]
            obtain ⟨tail, htail, hok⟩ := ih (setCachedResult i rule value now r st3)
            refine ⟨G ++ (E ++ (S ++ tail)), ?_, ?_⟩
            · rw [htail, hS, hE, hG, hev1]
              simp [List.append_assoc]
            · intro e hmem
              rcases List.mem_append.mp hmem with h1 | h1
              · exact cacheOpOk_mono _ _ hsub1 e (hGok e h1)
              rcases List.mem_append.mp h1 with h2 | h2
              · exact cacheOpOk_mono _ _ hsub0 e (hEok e h2)
              rcases List.mem_append.mp h2 with h3 | h3
              · exact cacheOpOk_mono _ _ hsub1 e (hSok e h3)
              · exact cacheOpOk_mono rest _ hsub2 e (hok e h3)
          · have hval2 : r.valid = false := by rwa [Bool.not_eq_true] at hval
            simp only [hval2, Bool.false_eq_true, if_false]
            refine ⟨G ++ (E ++ S), ?_, ?_⟩
            · rw [hS, hE, hG, hev1]
              simp [List.append_assoc]
            · intro e hmem
              rcases List.mem_append.mp hmem with h1 | h1
              · exact cacheOpOk_mono _ _ hsub1 e (hGok e h1)
              rcases List.mem_append.mp h1 with h2 | h2
              · exact cacheOpOk_mono _ _ hsub0 e (hEok e h2)
              · exact cacheOpOk_mono _ _ hsub1 e (hSok e h2)

/-- When every rule in the chain is nameless the cache component of the
state is never touched. -/
theorem runRules_cache_nameless (h s a : Bool) (value : JSValue) (now : Nat) :
    ∀ (rs : List (Nat × ValidationRule)) (st : RunState),
      (∀ p ∈ rs, ruleNameKey p.2 = none) →
      (runRules h s a value now rs st).2.cache = st.cache := by
  intro rs
  induction rs with
  | nil =>
    intro st _
    simp only [runRules]
    rw [vCreateResult_cache]
  | cons p rest ih =>
    intro st hnm
    obtain ⟨i, rule⟩ := p
    have hname : ruleNameKey rule = none := hnm (i, rule) (List.mem_cons_self _ _)
    have hrest : ∀ q ∈ rest, ruleNameKey q.2 = none :=
      fun q hq => hnm q (List.mem_cons_of_mem _ hq)
    rcases hcr : checkRequired rule value st with ⟨creq, st1⟩
    have hc1 : st1.cache = st.cache := by
      have hh := checkRequired_cache rule value st
      rw [hcr] at hh
      exact hh
    simp only [runRules]
    rw [hcr]
    cases creq with
    | some r => exact hc1
    | none =>
      by_cases hemp : isEmptyValue value = true
      · simp only [hemp, if_true]
        rw [ih st1 hrest, hc1]
      · have hemp2 : isEmptyValue value = false := by rwa [Bool.not_eq_true] at hemp
        simp only [hemp2, Bool.false_eq_true, if_false]
        rw [getCachedResult_name_none i rule value now st1 hname]
        dsimp only
        rcases he : executeRule h a i rule value st1 with ⟨r, st3⟩
        have hc3 : st3.cache = st1.cache := by
          have hh := executeRule_cache h a i rule value st1
          rw [he] at hh
          exact hh
        dsimp only
        rw [setCachedResult_name_none i rule value now r st3 hname]
        by_cases hval : r.valid = true
        · simp only [hval, if_true]
          rw [ih st3 hrest, hc3, hc1]
        · have hval2 : r.valid = false := by rwa [Bool.not_eq_true] at hval
          simp only [hval2, Bool.false_eq_true, if_false]
          rw [hc3, hc1]

/-! ## C5 — nameless rules never touch the cache -/

/-- C5: for a rule at position i with no name, neither a cache get nor
a cache set event for that position is ever recorded by a run of either
entry point, whatever the cache configuration; and when every rule of
the chain is nameless, the final cache state (entries and hit/miss
counters alike) is the configured cache, untouched. -/
theorem nameless_rule_never_touches_cache (v : Validator) (isAsync : Bool) (value : JSValue)
    (now : Nat) (i : Nat) (rule : ValidationRule)
    (hr : v.rules[i]? = some rule) (hname : rule.name = none) :
    (∀ key, VEvent.cacheGet i key ∉ (v.run isAsync value now).events ∧
            VEvent.cacheSet i key ∉ (v.run isAsync value now).events) ∧
    ((∀ p ∈ v.rules, p.name = none) → (v.run isAsync value now).cache = v.cache) := by
  have hnk : ruleNameKey rule = none := by simp [ruleNameKey, hname]
  obtain ⟨tail, htail, hok⟩ := runRules_events_prov v.hasOnError v.stopOnFirstError isAsync
    value now v.rules.enum { cache := v.cache, pool := v.pool, events := [] }
  have hevents : (v.run isAsync value now).events = tail := by
    have hre : (v.run isAsync value now).events =
        (runRules v.hasOnError v.stopOnFirstError isAsync value now v.rules.enum
          { cache := v.cache, pool := v.pool, events := [] }).2.events := rfl
    rw [hre, htail]
    rfl
  refine ⟨?_, ?_⟩
  · intro key
    constructor
    · intro hmem
      rw [hevents] at hmem
      obtain ⟨rule2, hmem2, hname2⟩ := hok _ hmem
      have hget : v.rules[i]? = some rule2 := List.mk_mem_enum_iff_getElem?.mp hmem2
      rw [hr] at hget
      apply hname2
      rw [← Option.some.inj hget]
      exact hnk
    · intro hmem
      rw [hevents] at hmem
      obtain ⟨rule2, hmem2, hname2⟩ := hok _ hmem
      have hget : v.rules[i]? = some rule2 := List.mk_mem_enum_iff_getElem?.mp hmem2
      rw [hr] at hget
      apply hname2
      rw [← Option.some.inj hget]
      exact hnk
  · intro hall
    have hnick : ∀ p ∈ v.rules.enum, ruleNameKey p.2 = none := by
      intro p hp
      obtain ⟨j, x⟩ := p
      have hget : v.rules[j]? = some x := List.mk_mem_enum_iff_getElem?.mp hp
      obtain ⟨hlt, he⟩ := List.getElem?_eq_some.mp hget
      have hxmem : x ∈ v.rules := he ▸ List.getElem_mem hlt
      simp [ruleNameKey, hall x hxmem]
    exact runRules_cache_nameless v.hasOnError v.stopOnFirstError isAsync value now
      v.rules.enum { cache := v.cache, pool := v.pool, events := [] } hnick

/-- C5 witness: nameless rule at position 0 with a configured cache. -/
theorem nameless_rule_never_touches_cache_witness :
    (∀ key, VEvent.cacheGet 0 key ∉ (c5Validator.run true (.str "x") 0).events ∧
            VEvent.cacheSet 0 key ∉ (c5Validator.run true (.str "x") 0).events) ∧
    ((∀ p ∈ c5Validator.rules, p.name = none) →
      (c5Validator.run true (.str "x") 0).cache = c5Validator.cache) :=
  nameless_rule_never_touches_cache c5Validator true (.str "x") 0 0 namelessOkRule rfl rfl

/-! ## C6 — empty values short-circuit -/

theorem checkRequired_required_empty (rule : ValidationRule) (value : JSValue)
    (st : RunState) (hreq : rule.required = true) (hemp : isEmptyValue value = true) :
    checkRequired rule value st =
      (some { valid := false, message := strOrElse rule.message (some "此字段是必填项"),
              code := some "REQUIRED", meta := none },
       (vCreateResult st false (strOrElse rule.message (some "此字段是必填项"))
         (some "REQUIRED") none).2) := by
  unfold checkRequired
  rw [hreq, hemp]
  simp only [Bool.and_self, if_true]
  rw [vCreateResult_result]

/-- With an empty value the rule loop records no event, leaves the
cache untouched, and returns the REQUIRED result of the first required
rule, or the trivially valid result when none is required. -/
theorem runRules_empty_value (h s a : Bool) (value : JSValue) (now : Nat)
    (hemp : isEmptyValue value = true) :
    ∀ (rs : List (Nat × ValidationRule)) (st : RunState),
      (runRules h s a value now rs st).2.events = st.events ∧
      (runRules h s a value now rs st).2.cache = st.cache ∧
      (runRules h s a value now rs st).1 =
        (match rs.find? (fun p => p.2.required) with
         | some p => { valid := false, message := strOrElse p.2.message (some "此字段是必填项"),
                       code := some "REQUIRED", meta := none }
         | none => { valid := true }) := by
  intro rs
  induction rs with
  | nil =>
    intro st
    simp only [runRules]
    refine ⟨vCreateResult_events _ _ _ _ _, vCreateResult_cache _ _ _ _ _, ?_⟩
    rw [vCreateResult_result]
    rfl
  | cons p rest ih =>
    intro st
    obtain ⟨i, rule⟩ := p
    by_cases hreq : rule.required = true
    · have hcr := checkRequired_required_empty rule value st hreq hemp
      simp only [runRules]
      rw [hcr]
      dsimp only
      refine ⟨vCreateResult_events _ _ _ _ _, vCreateResult_cache _ _ _ _ _, ?_⟩
      rw [List.find?_cons_of_pos _ (by exact hreq)]
    · have hreq2 : rule.required = false := by rwa [Bool.not_eq_true] at hreq
      have hcr : checkRequired rule value st = (none, st) := by
        simp [checkRequired, hreq2]
      simp only [runRules]
      rw [hcr]
      dsimp only
      rw [if_pos hemp]
      obtain ⟨h1, h2, h3⟩ := ih st
      refine ⟨h1, h2, ?_⟩
      rw [h3, List.find?_cons_of_neg _ (by simp [hreq2])]

theorem enumFrom_find?_snd {α : Type} (q : α → Bool) :
    ∀ (l : List α) (j : Nat),
      ((l.enumFrom j).find? (fun p => q p.2)).map Prod.snd = l.find? q := by
  intro l
  induction l with
  | nil => intro j; rfl
  | cons a l ih =>
    intro j
    by_cases hq : q a = true
    · simp only [List.enumFrom]
      rw [List.find?_cons_of_pos _ (by exact hq), List.find?_cons_of_pos _ hq]
      rfl
    · have hq2 : q a = false := by rwa [Bool.not_eq_true] at hq
      simp only [List.enumFrom]
      rw [List.find?_cons_of_neg _ (by simp [hq2]), List.find?_cons_of_neg _ (by simp [hq2])]
      exact ih (j + 1)

/-- C6: with an empty value (null, undefined, the empty string) no
predicate runs and the cache is never consulted (no events at all are
recorded, so in particular no predicate-invocation event), and the
result is the REQUIRED failure of the first required rule in insertion
order, or valid when no rule is required. Covers both entry points via
the isAsync flag. -/
theorem empty_value_short_circuits (v : Validator) (isAsync : Bool) (value : JSValue)
    (now : Nat) (hemp : isEmptyValue value = true) :
    (v.run isAsync value now).events = [] ∧
    (v.run isAsync value now).cache = v.cache ∧
    (v.run isAsync value now).result =
      (match v.rules.find? (fun r => r.required) with
       | some r => { valid := false, message := strOrElse r.message (some "此字段是必填项"),
                     code := some "REQUIRED", meta := none }
       | none => { valid := true }) := by
  obtain ⟨h1, h2, h3⟩ := runRules_empty_value v.hasOnError v.stopOnFirstError isAsync value
    now hemp v.rules.enum { cache := v.cache, pool := v.pool, events := [] }
  refine ⟨h1, h2, ?_⟩
  have hres : (v.run isAsync value now).result =
      (runRules v.hasOnError v.stopOnFirstError isAsync value now v.rules.enum
        { cache := v.cache, pool := v.pool, events := [] }).1 := rfl
  rw [hres, h3]
  have henum : ((v.rules.enum).find? (fun p => p.2.required)).map Prod.snd =
      v.rules.find? (fun r => r.required) := enumFrom_find?_snd (fun r => r.required) v.rules 0
  cases hf : v.rules.find? (fun r => r.required) with
  | none =>
    rw [hf, Option.map_eq_none'] at henum
    rw [henum]
  | some r =>
    rw [hf] at henum
    obtain ⟨p, hp, hsnd⟩ := Option.map_eq_some'.mp henum
    rw [hp]
    dsimp only
    rw [hsnd]

/-! ## C2 — synchronous throws are contained by the async entry point -/

theorem setCachedResult_cache_none (i : Nat) (rule : ValidationRule) (value : JSValue)
    (now : Nat) (r : ValidationResult) (st : RunState) (hc : st.cache = none) :
    setCachedResult i rule value now r st = st := by
  unfold setCachedResult
  rw [hc]

theorem snd_mem_of_mem_enumFrom {α : Type} (l : List α) (n : Nat) (p : Nat × α)
    (hp : p ∈ l.enumFrom n) : p.2 ∈ l := by
  obtain ⟨i, x⟩ := p
  obtain ⟨_hle, hget⟩ := List.mk_mem_enumFrom_iff_le_and_getElem?_sub.mp hp
  obtain ⟨hlt, he⟩ := List.getElem?_eq_some.mp hget
  exact he ▸ List.getElem_mem hlt

/-- A prefix of rules that all pass under the async entry point is run
through without touching the cacheless state beyond predicate-call
events. -/
theorem runRules_passing_prefix (h s : Bool) (value : JSValue) (now : Nat)
    (hne : isEmptyValue value = false) :
    ∀ (ips rest : List (Nat × ValidationRule)) (st : RunState), st.cache = none →
      (∀ p ∈ ips, rulePasses p.2 value) →
      runRules h s true value now (ips ++ rest) st =
        runRules h s true value now rest
          { st with events := st.events ++ ips.map (fun p => VEvent.predCall p.1) } := by
  intro ips
  induction ips with
  | nil =>
    intro rest st _ _
    simp
  | cons p ips ih =>
    intro rest st hc hp
    obtain ⟨i, rule⟩ := p
    have hpass := hp (i, rule) (List.mem_cons_self _ _)
    have hrest : ∀ q ∈ ips, rulePasses q.2 value :=
      fun q hq => hp q (List.mem_cons_of_mem _ hq)
    rw [List.cons_append]
    simp only [runRules]
    rw [checkRequired_nonempty _ _ _ hne]
    dsimp only
    simp only [hne, Bool.false_eq_true, if_false]
    rw [getCachedResult_cache_none _ _ _ _ _ hc]
    dsimp only
    unfold rulePasses at hpass
    cases hv : rule.validator value with
    | ok res =>
      rw [hv] at hpass
      have hpass2 : res.valid = true := hpass
      have hex : executeRule h true i rule value st =
          (res, { st with events := st.events ++ [VEvent.predCall i] }) := by
        unfold executeRule
        rw [hv]
      rw [hex]
      dsimp only
      rw [setCachedResult_cache_none i rule value now res
        { st with events := st.events ++ [VEvent.predCall i] } (by exact hc)]
      simp only [hpass2, if_true]
      rw [ih rest { st with events := st.events ++ [VEvent.predCall i] } (by exact hc) hrest]
      simp [List.append_assoc]
    | asyncOk res =>
      rw [hv] at hpass
      have hpass2 : res.valid = true := hpass
      have hex : executeRule h true i rule value st =
          (res, { st with events := st.events ++ [VEvent.predCall i] }) := by
        unfold executeRule
        rw [hv]
        rfl
      rw [hex]
      dsimp only
      rw [setCachedResult_cache_none i rule value now res
        { st with events := st.events ++ [VEvent.predCall i] } (by exact hc)]
      simp only [hpass2, if_true]
      rw [ih rest { st with events := st.events ++ [VEvent.predCall i] } (by exact hc) hrest]
      simp [List.append_assoc]
    | thrown msg =>
      rw [hv] at hpass
      exact absurd hpass (by simp)
    | asyncThrown msg =>
      rw [hv] at hpass
      exact absurd hpass (by simp)

/-- A rule whose predicate throws, reached with a cacheless state,
produces the merged RULE_ERROR result. -/
theorem runRules_throwing_head (hook s : Bool) (value : JSValue) (now : Nat) (m : String)
    (hne : isEmptyValue value = false) (i : Nat) (r : ValidationRule)
    (hthrow : r.validator value = PredOutcome.thrown m)
    (rest : List (Nat × ValidationRule)) (st : RunState) (hc : st.cache = none) :
    runRules hook s true value now ((i, r) :: rest) st =
      (mergeRuleMessage (ruleErrorResult hook
          { st with events := st.events ++ [VEvent.predCall i] } m).1 r,
       (ruleErrorResult hook { st with events := st.events ++ [VEvent.predCall i] } m).2) := by
  simp only [runRules]
  rw [checkRequired_nonempty _ _ _ hne]
  dsimp only
  simp only [hne, Bool.false_eq_true, if_false]
  rw [getCachedResult_cache_none _ _ _ _ _ hc]
  dsimp only
  have hex : executeRule hook true i r value st =
      ruleErrorResult hook { st with events := st.events ++ [VEvent.predCall i] } m := by
    unfold executeRule
    rw [hthrow]
  rw [hex]
  rw [setCachedResult_cache_none i r value now
    (ruleErrorResult hook { st with events := st.events ++ [VEvent.predCall i] } m).1
    (ruleErrorResult hook { st with events := st.events ++ [VEvent.predCall i] } m).2
    (by rw [ruleErrorResult_cache]; exact hc)]
  have hval : (ruleErrorResult hook
      { st with events := st.events ++ [VEvent.predCall i] } m).1.valid = false := by
    rw [ruleErrorResult_result]
  simp only [hval, Bool.false_eq_true, if_false]

/-- C2: a rule whose predicate throws synchronously, reached through
the async entry point behind any chain of passing rules, yields the
result { valid: false, code: RULE_ERROR } with the thrown message in
meta — the exception is converted, never propagated — and when the
onError hook is configured it is invoked with that message. The stated
result record is the same whether or not the hook is configured (the
theorem holds for both values of hook), exhibiting that the hook does
not change the returned result. -/
theorem validate_sync_throw_is_contained (pre post : List ValidationRule)
    (r : ValidationRule) (pl : Option ResultPool) (s hook : Bool) (value : JSValue)
    (now : Nat) (m : String)
    (hne : isEmptyValue value = false) (hthrow : r.validator value = PredOutcome.thrown m)
    (hpre : ∀ p ∈ pre, rulePasses p value) :
    (({ rules := pre ++ r :: post, cache := none, pool := pl, stopOnFirstError := s,
        hasOnError := hook } : Validator).validate value now).result =
      { valid := false, message := strOrElse r.message (some "验证规则执行出错"),
        code := some "RULE_ERROR", meta := some m } ∧
    (hook = true →
      VEvent.hookCall m ∈
        (({ rules := pre ++ r :: post, cache := none, pool := pl, stopOnFirstError := s,
            hasOnError := hook } : Validator).validate value now).events) := by
  have henum : (pre ++ r :: post).enum =
      pre.enumFrom 0 ++ ((pre.length, r) :: post.enumFrom (pre.length + 1)) := by
    rw [List.enum, List.enumFrom_append]
    simp [List.enumFrom]
  have hpre2 : ∀ p ∈ pre.enumFrom 0, rulePasses p.2 value :=
    fun p hp => hpre p.2 (snd_mem_of_mem_enumFrom _ _ _ hp)
  have hprefix := runRules_passing_prefix hook s value now hne (pre.enumFrom 0)
    ((pre.length, r) :: post.enumFrom (pre.length + 1))
    { cache := none, pool := pl, events := [] } rfl hpre2
  have hhead := runRules_throwing_head hook s value now m hne pre.length r hthrow
    (post.enumFrom (pre.length + 1))
    { cache := none, pool := pl,
      events := [] ++ (pre.enumFrom 0).map (fun p => VEvent.predCall p.1) } rfl
  have hrun : runRules hook s true value now ((pre ++ r :: post).enum)
      { cache := none, pool := pl, events := [] } =
      (mergeRuleMessage (ruleErrorResult hook
          { cache := none, pool := pl,
            events := ([] ++ (pre.enumFrom 0).map (fun p => VEvent.predCall p.1)) ++
              [VEvent.predCall pre.length] } m).1 r,
       (ruleErrorResult hook
          { cache := none, pool := pl,
            events := ([] ++ (pre.enumFrom 0).map (fun p => VEvent.predCall p.1)) ++
              [VEvent.predCall pre.length] } m).2) := by
    rw [henum, hprefix, hhead]
  constructor
  · show (runRules hook s true value now ((pre ++ r :: post).enum)
        { cache := none, pool := pl, events := [] }).1 = _
    rw [hrun]
    dsimp only
    rw [ruleErrorResult_result]
    rfl
  · intro hk
    show VEvent.hookCall m ∈ (runRules hook s true value now ((pre ++ r :: post).enum)
        { cache := none, pool := pl, events := [] }).2.events
    rw [hrun]
    dsimp only
    rw [ruleErrorResult_events, hk]
    simp

/-- C2 witness: a single throwing rule behind one passing nameless
rule, with the hook configured. -/
theorem validate_sync_throw_is_contained_witness :
    (({ rules := [namelessOkRule] ++ throwingRule :: [], cache := none, pool := none,
        stopOnFirstError := true, hasOnError := true } : Validator).validate
          (.str "x") 0).result =
      { valid := false, message := strOrElse throwingRule.message (some "验证规则执行出错"),
        code := some "RULE_ERROR", meta := some "kaput" } ∧
    (true = true →
      VEvent.hookCall "kaput" ∈
        (({ rules := [namelessOkRule] ++ throwingRule :: [], cache := none, pool := none,
            stopOnFirstError := true, hasOnError := true } : Validator).validate
              (.str "x") 0).events) := by
  have h := validate_sync_throw_is_contained [namelessOkRule] [] throwingRule none true true
    (.str "x") 0 "kaput" rfl rfl
    (by
      intro p hp
      rw [List.mem_singleton] at hp
      subst hp
      unfold rulePasses namelessOkRule
      simp)
  exact h

/-- C6 witness: a chain with a nameless non-required rule ahead of a
required rule, validated on null. -/
theorem empty_value_short_circuits_witness :
    (c6Validator.run true .null 0).events = [] ∧
    (c6Validator.run true .null 0).cache = c6Validator.cache ∧
    (c6Validator.run true .null 0).result =
      { valid := false, message := some "need", code := some "REQUIRED", meta := none } := by
  have h := empty_value_short_circuits c6Validator true .null 0 rfl
  exact ⟨h.1, h.2.1, h.2.2⟩

/-! ## C7 — schema result consistency -/

theorem assocLookup_map_bucket (m : List (String × List ValidationError)) (f : String)
    (e : ValidationError) :
    assocLookup f (m.map fun p => if p.1 = f then (p.1, p.2 ++ [e]) else p) =
      (assocLookup f m).map (fun l => l ++ [e]) := by
  induction m with
  | nil => rfl
  | cons p m ih =>
    by_cases hpf : p.1 = f
    · simp [assocLookup, hpf]
    · simp [assocLookup, hpf, ih]

theorem assocLookup_map_bucket_ne (m : List (String × List ValidationError)) (f : String)
    (e : ValidationError) (g : String) (hg : g ≠ f) :
    assocLookup g (m.map fun p => if p.1 = f then (p.1, p.2 ++ [e]) else p) =
      assocLookup g m := by
  induction m with
  | nil => rfl
  | cons p m ih =>
    simp only [List.map_cons]
    by_cases hpf : p.1 = f
    · have hpg : ¬ p.1 = g := by
        rw [hpf]
        exact fun h => hg h.symm
      simp [assocLookup, hpf, hpg, ih, Ne.symm hg]
    · simp only [if_neg hpf]
      simp only [assocLookup]
      by_cases hpg : p.1 = g
      · simp [hpg]
      · simp [hpg, ih]

theorem addToErrorMap_lookup_self (m : List (String × List ValidationError)) (f : String)
    (e : ValidationError) :
    ∃ l, assocLookup f (addToErrorMap m f e) = some l ∧ e ∈ l := by
  unfold addToErrorMap
  cases hl : assocLookup f m with
  | none =>
    refine ⟨[e], ?_, List.mem_singleton_self e⟩
    rw [assocLookup_append, hl]
    simp [assocLookup]
  | some l =>
    refine ⟨l ++ [e], ?_, List.mem_append_right _ (List.mem_singleton_self e)⟩
    rw [assocLookup_map_bucket, hl]
    rfl

theorem addToErrorMap_lookup_ne (m : List (String × List ValidationError)) (f : String)
    (e : ValidationError) (g : String) (hg : g ≠ f) :
    assocLookup g (addToErrorMap m f e) = assocLookup g m := by
  unfold addToErrorMap
  cases hl : assocLookup f m with
  | none =>
    rw [assocLookup_append]
    cases hgm : assocLookup g m with
    | none => simp [assocLookup, Ne.symm hg]
    | some w => simp
  | some l => exact assocLookup_map_bucket_ne m f e g hg

theorem addToErrorMap_mem (m : List (String × List ValidationError)) (f : String)
    (e : ValidationError) (p : String × List ValidationError) (hp : p ∈ addToErrorMap m f e)
    (x : ValidationError) (hx : x ∈ p.2) :
    (∃ q ∈ m, q.1 = p.1 ∧ x ∈ q.2) ∨ (x = e ∧ p.1 = f) := by
  unfold addToErrorMap at hp
  cases hl : assocLookup f m with
  | some l =>
    rw [hl] at hp
    obtain ⟨q, hq, hphi⟩ := List.mem_map.mp hp
    by_cases hqf : q.1 = f
    · rw [if_pos hqf] at hphi
      subst hphi
      rcases List.mem_append.mp hx with h1 | h1
      · exact Or.inl ⟨q, hq, rfl, h1⟩
      · rw [List.mem_singleton] at h1
        exact Or.inr ⟨h1, hqf⟩
    · rw [if_neg hqf] at hphi
      subst hphi
      exact Or.inl ⟨q, hq, rfl, hx⟩
  | none =>
    rw [hl] at hp
    rcases List.mem_append.mp hp with h1 | h1
    · exact Or.inl ⟨p, h1, rfl, hx⟩
    · rw [List.mem_singleton] at h1
      subst h1
      rw [List.mem_singleton] at hx
      exact Or.inr ⟨hx, rfl⟩

/-- Pushing one error for its field preserves errors/errorMap
consistency. -/
theorem emConsistent_push (errors : List ValidationError)
    (em : List (String × List ValidationError)) (h : emConsistent errors em)
    (e : ValidationError) (f : String) (hf : e.field = f) :
    emConsistent (errors ++ [e]) (addToErrorMap em f e) := by
  obtain ⟨h1, h2⟩ := h
  constructor
  · intro x hx
    rcases List.mem_append.mp hx with hx1 | hx1
    · obtain ⟨l, hl, hxl⟩ := h1 x hx1
      by_cases hxf : x.field = f
      · rw [hxf] at hl
        refine ⟨l ++ [e], ?_, List.mem_append_left _ hxl⟩
        rw [hxf]
        unfold addToErrorMap
        rw [hl, assocLookup_map_bucket, hl]
        rfl
      · refine ⟨l, ?_, hxl⟩
        rw [addToErrorMap_lookup_ne em f e x.field hxf]
        exact hl
    · rw [List.mem_singleton] at hx1
      obtain ⟨l, hl, hel⟩ := addToErrorMap_lookup_self em f e
      refine ⟨l, ?_, ?_⟩
      · rw [hx1, hf]
        exact hl
      · rw [hx1]
        exact hel
  · intro p hp x hx
    rcases addToErrorMap_mem em f e p hp x hx with ⟨q, hq, hq1, hq2⟩ | ⟨hxe, hpf⟩
    · obtain ⟨hxm, hxf⟩ := h2 q hq x hq2
      exact ⟨List.mem_append_left _ hxm, by rw [hxf, hq1]⟩
    · subst hxe
      exact ⟨List.mem_append_right _ (List.mem_singleton_self _),
        by rw [hf, hpf]⟩

/-- The inner rule loop preserves consistency, and an early return
leaves a nonempty error list. -/
theorem schemaRulesLoop_invariant (stop : Bool) (f : String) :
    ∀ (rs : List SchemaRuleM) (errors : List ValidationError)
      (em : List (String × List ValidationError)), emConsistent errors em →
      emConsistent (schemaRulesLoop stop f rs errors em).1
        (schemaRulesLoop stop f rs errors em).2.1 ∧
      ((schemaRulesLoop stop f rs errors em).2.2 = true →
        (schemaRulesLoop stop f rs errors em).1 ≠ []) := by
  intro rs
  induction rs with
  | nil =>
    intro errors em h
    refine ⟨h, ?_⟩
    intro hearly
    simp [schemaRulesLoop] at hearly
  | cons r rs ih =>
    intro errors em h
    simp only [schemaRulesLoop]
    by_cases hv : r.outcome.valid = true
    · simp only [hv, if_true]
      exact ih errors em h
    · have hv2 : r.outcome.valid = false := by rwa [Bool.not_eq_true] at hv
      simp only [hv2, Bool.false_eq_true, if_false]
      have hpush := emConsistent_push errors em h (mkValidationError f r) f rfl
      by_cases hstop : stop = true
      · simp only [hstop, if_true]
        exact ⟨hpush, fun _ => by simp⟩
      · have hstop2 : stop = false := by rwa [Bool.not_eq_true] at hstop
        simp only [hstop2, Bool.false_eq_true, if_false]
        exact ⟨hpush, fun hearly => absurd hearly (by simp)⟩

/-- The outer field loop turns a consistent accumulator into a
consistent result whose valid flag mirrors emptiness of the errors. -/
theorem schemaFieldsLoop_invariant (stop : Bool) :
    ∀ (fields : List (String × List SchemaRuleM)) (errors : List ValidationError)
      (em : List (String × List ValidationError)), emConsistent errors em →
      ((schemaFieldsLoop stop fields errors em).valid = true ↔
        (schemaFieldsLoop stop fields errors em).errors = []) ∧
      emConsistent (schemaFieldsLoop stop fields errors em).errors
        (schemaFieldsLoop stop fields errors em).errorMap := by
  intro fields
  induction fields with
  | nil =>
    intro errors em h
    refine ⟨?_, h⟩
    simp only [schemaFieldsLoop]
    constructor
    · intro hv
      have := of_decide_eq_true hv
      exact List.length_eq_zero.mp this
    · intro he
      subst he
      rfl
  | cons fp fields ih =>
    intro errors em h
    obtain ⟨f, rs⟩ := fp
    obtain ⟨hcons, hne⟩ := schemaRulesLoop_invariant stop f rs errors em h
    simp only [schemaFieldsLoop]
    rcases hl : schemaRulesLoop stop f rs errors em with ⟨errors1, em1, early⟩
    rw [hl] at hcons hne
    dsimp only at hcons hne
    cases early with
    | true =>
      dsimp only
      refine ⟨?_, hcons⟩
      constructor
      · intro hv
        exact absurd hv (by simp)
      · intro he
        exact absurd he (hne rfl)
    | false =>
      dsimp only
      exact ih errors1 em1 hcons

/-- C7: a schema validation result has valid = true exactly when the
flat error list is empty, every recorded error sits in the errorMap
bucket of its field, and every bucket member is a recorded error for
that field — for both the early stopOnFirstError return and the final
return. -/
theorem schema_result_consistent (stop : Bool)
    (schema : List (String × List SchemaRuleM)) :
    ((schemaValidate stop schema).valid = true ↔ (schemaValidate stop schema).errors = []) ∧
    (∀ e ∈ (schemaValidate stop schema).errors,
       ∃ l, assocLookup e.field (schemaValidate stop schema).errorMap = some l ∧ e ∈ l) ∧
    (∀ p ∈ (schemaValidate stop schema).errorMap, ∀ e ∈ p.2,
       e ∈ (schemaValidate stop schema).errors ∧ e.field = p.1) := by
  have hc0 : emConsistent [] [] := by
    constructor
    · intro e he
      exact absurd he (List.not_mem_nil e)
    · intro p hp
      exact absurd hp (List.not_mem_nil p)
  have h := schemaFieldsLoop_invariant stop schema [] [] hc0
  exact ⟨h.1, h.2.1, h.2.2⟩

/-- C7 witness: a concrete two-field schema with one failing field. -/
theorem schema_result_consistent_witness :
    ((schemaValidate false c7Schema).valid = true ↔ (schemaValidate false c7Schema).errors = []) ∧
    (∀ e ∈ (schemaValidate false c7Schema).errors,
       ∃ l, assocLookup e.field (schemaValidate false c7Schema).errorMap = some l ∧ e ∈ l) ∧
    (∀ p ∈ (schemaValidate false c7Schema).errorMap, ∀ e ∈ p.2,
       e ∈ (schemaValidate false c7Schema).errors ∧ e.field = p.1) :=
  schema_result_consistent false c7Schema

end LDValidator
